import Mathlib

/-!
Verification development for the mailtester key-rotation service.

The JavaScript sources embedded here:
  * `src/src/keyHealthChecker.js` — env parsing, eviction of dead keys,
    `.env` rewriting, the reconciler (`performSync`) and the health check
    (`performHealthCheck`).
  * `src/routes/keys.js` — the HTTP handlers for `/key/available` and
    `DELETE /keys/:id`.
The `keyManager` module (admission controller) is not among the provided
sources; where a claim needs it, it is modelled from the spec (§4.1) and
marked as such in its doc comment.

JavaScript strings are modelled as Lean `String`s; `String.trim` and
`Char.isAlphanum` stand in for their ASCII JavaScript counterparts, and
timestamps are `Int` milliseconds.
-/

namespace MailTester

/-! JavaScript string primitives, implemented by structural recursion over
the character list so that every definition evaluates by `decide`/`rfl`. -/

/-- JavaScript `\s` restricted to the ASCII characters that can occur here. -/
def jsSpaceChar (c : Char) : Bool :=
  c = ' ' || c = '\t' || c = '\n' || c = '\r' || c = '\x0b' || c = '\x0c'

/-- ASCII lower-casing, standing in for JavaScript `toLowerCase()` (all the
strings compared in the source are ASCII). -/
def jsToLower (s : String) : String := String.mk (s.toList.map Char.toLower)

/-- JavaScript `str.trim()`: strip leading and trailing whitespace. -/
def jsTrim (s : String) : String :=
  String.mk (((s.toList.dropWhile jsSpaceChar).reverse.dropWhile jsSpaceChar).reverse)

/-- Helper for `jsSplit`: the characters read so far, reversed, are in `acc`. -/
def jsSplitAux (sep : Char) : List Char → List Char → List String
  | [], acc => [String.mk acc.reverse]
  | c :: rest, acc =>
      if c = sep then String.mk acc.reverse :: jsSplitAux sep rest []
      else jsSplitAux sep rest (c :: acc)

/-- JavaScript `str.split(sep)` for a one-character separator (the source
only ever splits on `','`, `':'` and the line-break pattern). -/
def jsSplit (s : String) (sep : Char) : List String :=
  jsSplitAux sep s.toList []

/-- JavaScript `parts.join(sep)`. -/
def jsJoin (sep : String) : List String → String
  | [] => ""
  | [s] => s
  | s :: rest => s ++ sep ++ jsJoin sep rest

/-- Source: `normalizePlan` in `parseKeysFromEnv`
(`src/src/keyHealthChecker.js:222`):
`(plan) => (String(plan || '').toLowerCase() === 'pro' ? 'pro' : 'ultimate')`.
For a string argument, `String(plan || '')` is the string itself (the empty
string stays empty), so the coercion is the identity here. -/
def normalizePlan (plan : String) : String :=
  if jsToLower plan = "pro" then "pro" else "ultimate"

/-- One element of the parsed `MAILTESTER_KEYS_JSON` array.  The source reads
`String(entry?.id || '')` and `entry?.plan || defaultPlan`; we model each
field as the `String(...)`-coerced value, with `""` standing for an absent or
falsy field. -/
structure JsonEntry where
  id : String
  plan : String
deriving DecidableEq, Repr

/-- The environment variables consumed by `parseKeysFromEnv`
(`src/src/keyHealthChecker.js:216-280`).  `JSON.parse` is library code; the
`jsonParsed` field carries its outcome directly: `some entries` when the raw
value (from `MAILTESTER_KEYS_JSON` or the file behind
`MAILTESTER_KEYS_JSON_PATH`) is non-empty, parses, and is an array, and
`none` when the raw value is empty, fails to parse, or is not an array (all
of which leave `jsonKeys` empty in the source). -/
structure EnvVars where
  defaultPlanRaw : String
  jsonParsed : Option (List JsonEntry)
  keysWithPlan : String
  keys : String
deriving DecidableEq, Repr

/-- A desired-state entry `{id, plan}`. -/
structure KeyPlan where
  id : String
  plan : String
deriving DecidableEq, Repr

/-- `const defaultPlan = String(envVars.MAILTESTER_DEFAULT_PLAN || 'ultimate').toLowerCase()`. -/
def defaultPlanOf (e : EnvVars) : String :=
  jsToLower (if e.defaultPlanRaw = "" then "ultimate" else e.defaultPlanRaw)

/-- The `jsonKeys` accumulation loop of `parseKeysFromEnv`: entries with an
empty trimmed id are skipped, the rest get `normalizePlan(entry?.plan || defaultPlan)`. -/
def jsonStage (e : EnvVars) : List KeyPlan :=
  match e.jsonParsed with
  | some entries =>
      entries.filterMap (fun entry =>
        let id := jsTrim entry.id
        if id = "" then none
        else some ⟨id, normalizePlan (if entry.plan = "" then defaultPlanOf e else entry.plan)⟩)
  | none => []

/-- The `csvKeys` stage of `parseKeysFromEnv` over `MAILTESTER_KEYS_WITH_PLAN`:
split on commas, trim, drop empties, split each entry on `:` into
`idPart`/`planPart`; entries whose trimmed id is empty are skipped.  When the
raw string is blank the stage yields nothing. -/
def csvStage (e : EnvVars) : List KeyPlan :=
  if jsTrim e.keysWithPlan = "" then []
  else
    (((jsSplit e.keysWithPlan ',').map jsTrim).filter (fun s => s ≠ "")).filterMap
      (fun entry =>
        let parts := jsSplit entry ':'
        let idPart := parts.headD ""
        let planPart := (parts.get? 1).getD ""
        let id := jsTrim idPart
        if id = "" then none
        else some ⟨id, normalizePlan (if planPart = "" then defaultPlanOf e else planPart)⟩)

/-- The `listKeys` stage of `parseKeysFromEnv` over bare `MAILTESTER_KEYS`:
split on commas, trim, drop empties, assign `normalizePlan(defaultPlan)`. -/
def listStage (e : EnvVars) : List KeyPlan :=
  if jsTrim e.keys = "" then []
  else
    (((jsSplit e.keys ',').map jsTrim).filter (fun s => s ≠ "")).map
      (fun id => ⟨id, normalizePlan (defaultPlanOf e)⟩)

/-- Source: `parseKeysFromEnv` (`src/src/keyHealthChecker.js:216-280`),
with the three early-return blocks written as nested conditionals.  When the
`csvRaw` block runs but produces no keys the source falls through to the
bare-list block, which the hoisted `csvStage` (empty in that case) reproduces. -/
def parseKeysFromEnv (e : EnvVars) : List KeyPlan :=
  let jsonKeys := jsonStage e
  if jsonKeys ≠ [] then jsonKeys
  else
    let csvKeys := csvStage e
    if csvKeys ≠ [] then csvKeys
    else listStage e

/-! ### Association-list maps

`Map` objects in the JavaScript source (and the key pool itself) are modelled
as association lists.  `Map.prototype.set` updates an existing key in place
(keeping its insertion position) and otherwise appends, which `mapSet`
reproduces; `Map.prototype.get` is `alookup`. -/

/-- First-match lookup in an association list. -/
def alookup {β : Type} (m : List (String × β)) (k : String) : Option β :=
  match m with
  | [] => none
  | (k', v) :: rest => if k' = k then some v else alookup rest k

/-- JavaScript `Map.set`: overwrite in place when present, append otherwise. -/
def mapSet {β : Type} (m : List (String × β)) (k : String) (v : β) :
    List (String × β) :=
  if (alookup m k).isSome then
    m.map (fun p => if p.1 = k then (k, v) else p)
  else m ++ [(k, v)]

/-- Build a JavaScript `Map` from an entry list (`new Map(entries)` /
a `for ... map.set(...)` loop): later entries overwrite earlier ones. -/
def buildMap {β : Type} (l : List (String × β)) : List (String × β) :=
  l.foldl (fun m kv => mapSet m kv.1 kv.2) []

/-! ### The key pool (admission controller)

The `keyManager` module is not among the provided sources; the operations the
reconciler and the HTTP handlers call are modelled from the spec at the
granularity these claims need: the pool is the list of active keys with their
plans. -/

/-- Modelled from the spec: `registerKey(id, plan)` (§4.1) on the missing
`keyManager` — if `id` exists and is active, update `plan` in place;
otherwise create the record. -/
def registerKey (pool : List (String × String)) (id plan : String) :
    List (String × String) :=
  mapSet pool id plan

/-- Modelled from the spec: `deleteKey(id)` (§4.1) on the missing
`keyManager` — removes the record outright; a no-op when `id` is unknown. -/
def deleteKey (pool : List (String × String)) (id : String) :
    List (String × String) :=
  pool.filter (fun e => e.1 ≠ id)

/-- The mutations one reconciliation pass decides on. -/
structure SyncOps where
  registers : List (String × String)
  deletes : List String
deriving DecidableEq, Repr

/-- Source: the decision logic of `performSync`
(`src/src/keyHealthChecker.js:282-319`).  `desiredMap` is built with JS `Map`
semantics from the parsed desired-state list, `existingMap` from
`getAllKeysStatus()`.  An id is registered unless
`currentPlan && currentPlan === plan` (so an empty current plan — falsy —
also triggers registration), and every existing id absent from `desiredMap`
is deleted. -/
def desiredMapOf (desired : List KeyPlan) : List (String × String) :=
  buildMap (desired.map (fun k => (k.id, k.plan)))

/-- The register-loop guard of `performSync`: an id is registered unless
`currentPlan && currentPlan === plan` holds in the existing map. -/
def needsRegister (existingMap : List (String × String))
    (kv : String × String) : Bool :=
  match alookup existingMap kv.1 with
  | some currentPlan => decide (¬ (currentPlan ≠ "" ∧ currentPlan = kv.2))
  | none => true

def syncOps (desired : List KeyPlan) (existing : List (String × String)) :
    SyncOps :=
  let desiredMap := desiredMapOf desired
  let existingMap := buildMap existing
  { registers := desiredMap.filter (needsRegister existingMap)
    deletes := (existingMap.map Prod.fst).filter
      (fun id => (alookup desiredMap id).isNone) }

/-- Applying the mutations of one pass to the pool, in source order:
the register loop runs before the delete loop. -/
def applySync (pool : List (String × String)) (ops : SyncOps) :
    List (String × String) :=
  ops.deletes.foldl deleteKey
    (ops.registers.foldl (fun p kv => registerKey p kv.1 kv.2) pool)

/-! ### The `.env` file model (`src/src/keyHealthChecker.js:30-117`) -/

/-- A `[A-Za-z0-9_]` character (`Char.isAlphanum` is ASCII-only). -/
def jsWordChar (c : Char) : Bool :=
  c.isAlphanum || c = '_'

/-- Dropping the `\r` that `/\r?\n/` consumes before each line break: every
segment except the last loses one trailing `'\r'`. -/
def stripCR : List String → List String
  | [] => []
  | [s] => [s]
  | s :: rest =>
      (if s.toList.getLast? = some '\r' then String.mk s.toList.dropLast else s)
        :: stripCR rest

/-- `content.split(/\r?\n/)`: split on `'\n'` and strip the `'\r'` belonging
to each consumed break. -/
def splitEnvLines (content : String) : List String :=
  stripCR (jsSplit content '\n')

/-- The line regex of `parseEnvLines`:
`/^\s*([A-Za-z0-9_]+)\s*=\s*(.*)$/`.  The match is deterministic because
`\s`, `[A-Za-z0-9_]` and `=` are pairwise disjoint; `.` does not match
`'\r'`/`'\n'`, so a line is rejected when such a character survives into the
value region. -/
def matchEnvLine (line : String) : Option (String × String) :=
  let cs := line.toList
  let afterWs := cs.dropWhile jsSpaceChar
  let keyCs := afterWs.takeWhile jsWordChar
  if keyCs.isEmpty then none
  else
    match (afterWs.drop keyCs.length).dropWhile jsSpaceChar with
    | '=' :: rest =>
        let value := rest.dropWhile jsSpaceChar
        if value.any (fun c => c = '\n' || c = '\r') then none
        else some (String.mk keyCs, String.mk value)
    | _ => none


/-- One `map` entry of `parseEnvLines`: the raw value text and the index of
the line it came from. -/
structure EnvEntry where
  value : String
  index : Nat
deriving DecidableEq, Repr

/-- The result of `parseEnvLines` (`src/src/keyHealthChecker.js:30-40`). -/
structure ParsedEnv where
  lines : List String
  map : List (String × EnvEntry)
deriving DecidableEq, Repr

/-- Source: `parseEnvLines` — each matching line stores `(value, index)`
under its variable name; a repeated name overwrites (keeping the later
line's data, as `Map.set` does). -/
def parseEnvLines (content : String) : ParsedEnv :=
  let lines := splitEnvLines content
  { lines := lines
    map := lines.enum.foldl (fun m p =>
      match matchEnvLine p.2 with
      | some kv => mapSet m kv.1 ⟨kv.2, p.1⟩
      | none => m) [] }

/-- Source: `stringifyEnv` — `parsed.lines.join('\n')`. -/
def stringifyEnv (p : ParsedEnv) : String :=
  jsJoin "\n" p.lines

/-- Source: `sanitizeValue` — `if (!value) return ''; return value.trim()`. -/
def sanitizeValue (value : String) : String :=
  if value = "" then "" else jsTrim value

/-- Source: `removeIdFromCsv` (`src/src/keyHealthChecker.js:66-73`). -/
def removeIdFromCsv (value id : String) : String :=
  jsJoin ","
    ((((jsSplit value ',').map jsTrim).filter (fun s => s ≠ "")).filter
      (fun entry => jsTrim ((jsSplit entry ':').headD "") ≠ id))

/-- Source: `removeIdFromList` (`src/src/keyHealthChecker.js:75-82`). -/
def removeIdFromList (value id : String) : String :=
  jsJoin ","
    ((((jsSplit value ',').map jsTrim).filter (fun s => s ≠ "")).filter
      (fun entry => entry ≠ id))

/-- The update each priority variable gets in `removeSubscriptionFromEnv`.
`removeIdFromJson` runs the external `JSON.parse`/`JSON.stringify`, so the
theorems take that transformation (`jsonRemove value id`) as an arbitrary
function; on parse failure or no change the source returns `value` unchanged,
which is one possible instantiation. -/
def applyRemover (jsonRemove : String → String → String)
    (envKey id value : String) : String :=
  if envKey = "MAILTESTER_KEYS_JSON" then jsonRemove value id
  else if envKey = "MAILTESTER_KEYS_WITH_PLAN" then removeIdFromCsv value id
  else if envKey = "MAILTESTER_KEYS" then removeIdFromList value id
  else value

/-- One iteration of the priority-key loop in `removeSubscriptionFromEnv`:
`continue` (here `none`) when the variable is absent, blank, or unchanged by
the removal; otherwise the index to rewrite and the new `key=value` line. -/
def tryEnvKey (jsonRemove : String → String → String) (parsed : ParsedEnv)
    (id envKey : String) : Option (Nat × String) :=
  match alookup parsed.map envKey with
  | none => none
  | some entry =>
      let originalValue := sanitizeValue entry.value
      if originalValue = "" then none
      else
        let updatedValue := applyRemover jsonRemove envKey id originalValue
        if updatedValue ≠ originalValue then
          some (entry.index, envKey ++ "=" ++ updatedValue)
        else none

/-- Source: `removeSubscriptionFromEnv` (`src/src/keyHealthChecker.js:93-117`)
at the line level: the three priority variables are tried in order and the
loop breaks at the first whose value changes, rewriting exactly that line
(`updateEnvVariable`). -/
def removeSubLines (jsonRemove : String → String → String)
    (content id : String) : List String × Bool :=
  let parsed := parseEnvLines content
  match tryEnvKey jsonRemove parsed id "MAILTESTER_KEYS_JSON" with
  | some (idx, newLine) => (parsed.lines.set idx newLine, true)
  | none =>
    match tryEnvKey jsonRemove parsed id "MAILTESTER_KEYS_WITH_PLAN" with
    | some (idx, newLine) => (parsed.lines.set idx newLine, true)
    | none =>
      match tryEnvKey jsonRemove parsed id "MAILTESTER_KEYS" with
      | some (idx, newLine) => (parsed.lines.set idx newLine, true)
      | none => (parsed.lines, false)

/-- Source: `removeSubscriptionFromEnv` — returns
`{ content: stringifyEnv(parsed), modified }`. -/
def removeSubscriptionFromEnv (jsonRemove : String → String → String)
    (content id : String) : String × Bool :=
  let r := removeSubLines jsonRemove content id
  (jsJoin "\n" r.1, r.2)

/-! ### The health check (`src/src/keyHealthChecker.js:119-168`) -/

/-- The possible outcomes of the axios probe in `validateKey`:
a 200 response with a body (carrying `response.data.code`), any other
resolved response, a rejected request that still carries an HTTP response
(`err.response.status`), or a rejection with no response at all
(timeout / network failure). -/
inductive ProbeOutcome where
  | ok200 (code : String)
  | respOther
  | errResp (status : Nat)
  | errNoResp
deriving DecidableEq, Repr

/-- Source: `validateKey` (`src/src/keyHealthChecker.js:119-135`).  The catch
block's explicit 401/403 branch returns `false`; the fall-through branch logs
`HealthChecker: API request error` as a warning and then also returns
`false`, as does a rejection without a response — the conditional below keeps
the source's branch structure visible. -/
def validateKey : ProbeOutcome → Bool
  | .ok200 code => code = "ok"
  | .respOther => false
  | .errResp status => if status = 401 ∨ status = 403 then false else false
  | .errNoResp => false

/-- What one run of `performHealthCheck` did: the keys it probed (in order),
the keys it evicted (`cleanedIds`), and the content passed to `writeEnv`
when a write happened. -/
structure HCResult where
  probed : List String
  cleaned : List String
  envWritten : Option String
deriving DecidableEq, Repr

/-- The `for (const key of keys)` loop of `performHealthCheck`.  `probe`
gives each key's probe outcome and `delOk` the outcome of
`keyManager.deleteKey` (whose failure the source catches and logs, moving on
to the next key).  The inter-probe `setTimeout` delay has no effect on the
state and is not modelled. -/
def hcLoop (jsonRemove : String → String → String)
    (probe : String → ProbeOutcome) (delOk : String → Except String Unit) :
    List String → String → List String → List String →
    Except String (String × List String × List String)
  | [], env, cleaned, probed => .ok (env, cleaned, probed)
  | subscriptionId :: rest, env, cleaned, probed =>
      let isValid := validateKey (probe subscriptionId)
      if isValid then
        hcLoop jsonRemove probe delOk rest env cleaned (probed ++ [subscriptionId])
      else
        match delOk subscriptionId with
        | .ok _ =>
            let cleaned2 := cleaned ++ [subscriptionId]
            let r := removeSubscriptionFromEnv jsonRemove env subscriptionId
            let env2 := if r.2 then r.1 else env
            hcLoop jsonRemove probe delOk rest env2 cleaned2 (probed ++ [subscriptionId])
        | .error _ =>
            hcLoop jsonRemove probe delOk rest env cleaned (probed ++ [subscriptionId])

/-- Source: `performHealthCheck` (`src/src/keyHealthChecker.js:137-168`).
`ids` is `getAllKeysStatus()` projected to subscription ids; `envRead` is
`readEnv`'s outcome (`none` on a read failure, which the source turns into
`''`).  `writeEnv` is called only when `cleanedIds.length` is non-zero,
recorded here as `envWritten`.  The `Except` result captures whether any
per-key error escapes to the caller. -/
def performHealthCheck (jsonRemove : String → String → String)
    (probe : String → ProbeOutcome) (delOk : String → Except String Unit)
    (ids : List String) (envRead : Option String) : Except String HCResult :=
  if ids.isEmpty then .ok ⟨[], [], none⟩
  else
    let env0 := envRead.getD ""
    match hcLoop jsonRemove probe delOk ids env0 [] [] with
    | .ok (env, cleaned, probed) =>
        .ok ⟨probed, cleaned, if cleaned ≠ [] then some env else none⟩
    | .error e => .error e

/-! ### The HTTP handlers (`src/routes/keys.js`) -/

/-- A key as returned by `getAvailableKeysSnapshot()`; the handler only
touches `nextRequestAllowedAt` (`none` models an absent field, which the
source's `|| 0` turns into `0`, as it does an explicit `0`). -/
structure AvailKey where
  id : String
  nextRequestAllowedAt : Option Int
deriving DecidableEq, Repr

/-- A snapshot entry spread into the response with its `nextRequestInMs`
annotation. -/
structure AnnotatedKey where
  key : AvailKey
  nextRequestInMs : Int
deriving DecidableEq, Repr

/-- The `status` field of the `/key/available` response body. -/
inductive AvailStatus where
  | ok
  | wait
deriving DecidableEq, Repr

/-- The `/key/available` response body. -/
structure AvailResponse where
  status : AvailStatus
  keys : List AnnotatedKey
deriving DecidableEq, Repr

/-- Source: the `GET /key/available` handler (`src/routes/keys.js:26-42`),
on the success path: annotate every snapshot entry with
`Math.max((key.nextRequestAllowedAt || 0) - now, 0)`, answer
`{status:'wait', keys:[]}` when the payload is empty and
`{status:'ok', keys}` otherwise. -/
def availableHandler (snapshot : List AvailKey) (now : Int) : AvailResponse :=
  let payload := snapshot.map (fun key =>
    ⟨key, max ((key.nextRequestAllowedAt.getD 0) - now) 0⟩)
  if payload.isEmpty then ⟨.wait, []⟩ else ⟨.ok, payload⟩

/-- The responses the `DELETE /keys/:id` handler can produce. -/
inductive DeleteResponse where
  | badRequest (error : String)
  | okMsg (message : String)
deriving DecidableEq, Repr

/-- Source: the `DELETE /keys/:id` handler (`src/routes/keys.js:101-113`):
reject a missing id with 400, otherwise call `keyManager.deleteKey` (modelled
from the spec as total — §4.1 / §7: deletion never raises `NotFound`; the
handler's 500 catch is reachable only through `StorageError`, outside this
model) and answer 200 with `Key <id> deleted`. -/
def deleteKeyHandler (pool : List (String × String)) (id : String) :
    DeleteResponse × List (String × String) :=
  if id = "" then (.badRequest "id parameter is required", pool)
  else (.okMsg ("Key " ++ id ++ " deleted"), deleteKey pool id)

/-! ### The reservation operation (spec §4.1) -/

/-- The static plan policy `plan → (maxRequestsPerWindow, windowDurationMs)`. -/
structure PlanLimit where
  maxRequestsPerWindow : Nat
  windowDurationMs : Int
deriving DecidableEq, Repr

/-- The rate-limit fields of a key record. -/
structure KeyRec where
  windowCount : Nat
  windowStart : Int
  nextAllowedAt : Int
deriving DecidableEq, Repr

/-- What `reserve` returns to its caller. -/
structure ReserveResult where
  granted : Bool
  retryAfterMs : Int
deriving DecidableEq, Repr

/-- Modelled from the spec: `reserve(id)` (§4.1) on the missing `keyManager`.
If the window elapsed, reset `windowCount`/`windowStart`; grant while
`windowCount < maxRequestsPerWindow`, incrementing the count; otherwise deny
with `retryAfterMs = windowStart + windowDuration - now` and
`nextAllowedAt = windowStart + windowDuration`.  The spec requires the whole
operation to be atomic per key, so a batch of concurrent reservations is
modelled as a serialized sequence of these steps. -/
def reserve (lim : PlanLimit) (now : Int) (k : KeyRec) :
    ReserveResult × KeyRec :=
  let k1 := if now ≥ k.windowStart + lim.windowDurationMs then
      { k with windowCount := 0, windowStart := now }
    else k
  if k1.windowCount < lim.maxRequestsPerWindow then
    (⟨true, 0⟩, { k1 with windowCount := k1.windowCount + 1, nextAllowedAt := now })
  else
    (⟨false, k1.windowStart + lim.windowDurationMs - now⟩,
     { k1 with nextAllowedAt := k1.windowStart + lim.windowDurationMs })

/-- A batch of `n` concurrent `reserve` calls on one key at time `now`,
serialized as the spec's atomicity requirement dictates; returns each call's
`granted` flag and the final record. -/
def reserveSeq (lim : PlanLimit) (now : Int) (k : KeyRec) :
    Nat → List Bool × KeyRec
  | 0 => ([], k)
  | n + 1 =>
      let step := reserve lim now k
      let rest := reserveSeq lim now step.2 n
      (step.1.granted :: rest.1, rest.2)

deriving instance DecidableEq for Except

/-! ## Helper lemmas -/

/-- `parseKeysFromEnv` always returns one of its three stages verbatim. -/
theorem parseKeysFromEnv_eq_stage (e : EnvVars) :
    parseKeysFromEnv e = jsonStage e ∨ parseKeysFromEnv e = csvStage e ∨
      parseKeysFromEnv e = listStage e := by
  unfold parseKeysFromEnv
  by_cases hj : jsonStage e = []
  · by_cases hc : csvStage e = [] <;> simp [hj, hc]
  · simp [hj]

/-- `normalizePlan` only ever produces the two recognized plans. -/
theorem normalizePlan_cases (s : String) :
    normalizePlan s = "pro" ∨ normalizePlan s = "ultimate" := by
  unfold normalizePlan
  by_cases h : jsToLower s = "pro" <;> simp [h]

/-- Every entry of any stage carries a `normalizePlan`-produced plan. -/
theorem stage_plan_normalized (e : EnvVars) (kp : KeyPlan) :
    (kp ∈ jsonStage e ∨ kp ∈ csvStage e ∨ kp ∈ listStage e) →
      ∃ s, kp.plan = normalizePlan s := by
  intro h
  rcases h with h | h | h
  · unfold jsonStage at h
    match hj : e.jsonParsed with
    | none => rw [hj] at h; simp at h
    | some entries =>
        rw [hj] at h
        rcases List.mem_filterMap.mp h with ⟨entry, _, heq⟩
        dsimp only at heq
        by_cases hid : jsTrim entry.id = ""
        · rw [if_pos hid] at heq; cases heq
        · rw [if_neg hid] at heq
          exact ⟨_, by rw [← Option.some_inj.mp heq]⟩
  · unfold csvStage at h
    by_cases hraw : jsTrim e.keysWithPlan = ""
    · simp [hraw] at h
    · simp only [hraw, if_false] at h
      rcases List.mem_filterMap.mp h with ⟨entry, _, heq⟩
      try dsimp only at heq
      by_cases hid : jsTrim ((jsSplit entry ':').headD "") = ""
      · rw [if_pos hid] at heq; cases heq
      · rw [if_neg hid] at heq
        exact ⟨_, by rw [← Option.some_inj.mp heq]⟩
  · unfold listStage at h
    by_cases hraw : jsTrim e.keys = ""
    · simp [hraw] at h
    · simp only [hraw, if_false] at h
      rcases List.mem_map.mp h with ⟨s, _, heq⟩
      exact ⟨defaultPlanOf e, by rw [← heq]⟩

/-! ## Claims -/

/-- C3: the desired-state list is produced by trying the structured JSON
list, then the `id:plan` CSV, then the bare-id list, taking the first stage
that yields a non-empty list; when all three are empty the desired state is
the empty list. -/
theorem parseKeysFromEnv_precedence (e : EnvVars) :
    (jsonStage e ≠ [] → parseKeysFromEnv e = jsonStage e) ∧
    (jsonStage e = [] → csvStage e ≠ [] → parseKeysFromEnv e = csvStage e) ∧
    (jsonStage e = [] → csvStage e = [] → parseKeysFromEnv e = listStage e) ∧
    (jsonStage e = [] → csvStage e = [] → listStage e = [] →
      parseKeysFromEnv e = []) := by
  unfold parseKeysFromEnv
  refine ⟨fun hj => by simp [hj], fun hj hc => by simp [hj, hc],
    fun hj hc => by simp [hj, hc], fun hj hc hl => by simp [hj, hc, hl]⟩

/-- Witness for C3: on a source with a blank JSON variable, a blank
`id:plan` variable and `MAILTESTER_KEYS=a`, the parser returns the bare-id
stage. -/
theorem parseKeysFromEnv_precedence_witness :
    parseKeysFromEnv ⟨"", none, "", "a"⟩ = listStage ⟨"", none, "", "a"⟩ :=
  (parseKeysFromEnv_precedence ⟨"", none, "", "a"⟩).2.2.1 (by decide) (by decide)

/-- C8: every entry the parser hands to the reconciler has plan exactly
`"pro"` or `"ultimate"`; any plan string that is not case-insensitively
`"pro"` is normalized to `"ultimate"`. -/
theorem parseKeysFromEnv_plan_normalized :
    (∀ s, jsToLower s ≠ "pro" → normalizePlan s = "ultimate") ∧
    ∀ (e : EnvVars), ∀ kp ∈ parseKeysFromEnv e,
      kp.plan = "pro" ∨ kp.plan = "ultimate" := by
  constructor
  · intro s h; unfold normalizePlan; simp [h]
  · intro e kp hmem
    have hstage : kp ∈ jsonStage e ∨ kp ∈ csvStage e ∨ kp ∈ listStage e := by
      rcases parseKeysFromEnv_eq_stage e with h | h | h <;>
        rw [h] at hmem <;> tauto
    rcases stage_plan_normalized e kp hstage with ⟨s, hs⟩
    rw [hs]; exact normalizePlan_cases s

/-- Witness for C8: the misspelled plan `ulti` is normalized to
`"ultimate"`, and the parsed entry of `MAILTESTER_KEYS_WITH_PLAN=a:ulti`
carries a recognized plan. -/
theorem parseKeysFromEnv_plan_normalized_witness :
    normalizePlan "ulti" = "ultimate" ∧
      ((KeyPlan.mk "a" "ultimate").plan = "pro" ∨
        (KeyPlan.mk "a" "ultimate").plan = "ultimate") :=
  ⟨parseKeysFromEnv_plan_normalized.1 "ulti" (by decide),
   parseKeysFromEnv_plan_normalized.2 ⟨"", none, "a:ulti", ""⟩
     ⟨"a", "ultimate"⟩ (by decide)⟩

/-- `deleteKey` is idempotent. -/
theorem deleteKey_idem (pool : List (String × String)) (id : String) :
    deleteKey (deleteKey pool id) id = deleteKey pool id := by
  induction pool with
  | nil => rfl
  | cons hd tl ih =>
      unfold deleteKey at *
      by_cases h : hd.1 = id <;> simp [h, ih]

/-- Deleting an unknown id leaves the pool untouched. -/
theorem deleteKey_unknown (pool : List (String × String)) (id : String)
    (h : id ∉ pool.map Prod.fst) : deleteKey pool id = pool := by
  induction pool with
  | nil => rfl
  | cons hd tl ih =>
      simp only [List.map_cons, List.mem_cons, not_or] at h
      have hhd : hd.1 ≠ id := fun hh => h.1 hh.symm
      unfold deleteKey at *
      rw [List.filter_cons, if_pos (by simp [hhd]), ih h.2]

/-- C7: `/key/available` answers `{status:'wait', keys:[]}` on an empty
snapshot and `{status:'ok'}` otherwise, each entry annotated with
`nextRequestInMs = max(nextAllowedAt - now, 0)` (an absent `nextAllowedAt`
counting as 0). -/
theorem available_handler_contract (snapshot : List AvailKey) (now : Int) :
    (snapshot = [] → availableHandler snapshot now = ⟨.wait, []⟩) ∧
    (snapshot ≠ [] → (availableHandler snapshot now).status = .ok) ∧
    (availableHandler snapshot now).keys.map AnnotatedKey.key = snapshot ∧
    ∀ a ∈ (availableHandler snapshot now).keys,
      a.nextRequestInMs = max ((a.key.nextRequestAllowedAt.getD 0) - now) 0 := by
  by_cases hs : snapshot = []
  · subst hs; simp [availableHandler]
  · have hne : ¬ (snapshot.map (fun key =>
        AnnotatedKey.mk key (max ((key.nextRequestAllowedAt.getD 0) - now) 0))).isEmpty := by
      simp [List.isEmpty_iff, hs]
    refine ⟨fun h => absurd h hs, fun _ => ?_, ?_, ?_⟩
    · simp [availableHandler, hne]
    · simp [availableHandler, hne, List.map_map, Function.comp_def]
    · intro a ha
      simp only [availableHandler, hne, if_false, Bool.false_eq_true] at ha
      rcases List.mem_map.mp ha with ⟨key, _, rfl⟩
      rfl

/-- Witness for C7: a two-key snapshot at `now = 100`, one key ready
(`nextAllowedAt = 40`), one throttled until 160. -/
theorem available_handler_contract_witness :
    ([AvailKey.mk "a" (some 40), AvailKey.mk "b" (some 160)] ≠
        ([] : List AvailKey)) ∧
      (availableHandler [AvailKey.mk "a" (some 40), AvailKey.mk "b" (some 160)]
          100).status = .ok :=
  ⟨by decide,
   (available_handler_contract
     [AvailKey.mk "a" (some 40), AvailKey.mk "b" (some 160)] 100).2.1
     (by decide)⟩

/-- C6: `DELETE /keys/:id` reports success for every non-empty id — also for
ids unknown to the pool, which leave the pool untouched — and deleting the
same id twice succeeds both times with identical pool state. -/
theorem delete_key_handler_idempotent (pool : List (String × String))
    (id : String) (h : id ≠ "") :
    (deleteKeyHandler pool id).1 = .okMsg ("Key " ++ id ++ " deleted") ∧
    (deleteKeyHandler (deleteKeyHandler pool id).2 id).1 =
      .okMsg ("Key " ++ id ++ " deleted") ∧
    (deleteKeyHandler (deleteKeyHandler pool id).2 id).2 =
      (deleteKeyHandler pool id).2 ∧
    (id ∉ pool.map Prod.fst → (deleteKeyHandler pool id).2 = pool) := by
  unfold deleteKeyHandler
  simp only [h, if_false]
  exact ⟨by trivial, by trivial, deleteKey_idem pool id,
    deleteKey_unknown pool id⟩

/-- Witness for C6: deleting the unknown id `b` from a one-key pool answers
`Key b deleted` twice and never changes the pool. -/
theorem delete_key_handler_idempotent_witness :
    (deleteKeyHandler [("a", "pro")] "b").1 = .okMsg "Key b deleted" ∧
      (deleteKeyHandler [("a", "pro")] "b").2 = [("a", "pro")] :=
  ⟨(delete_key_handler_idempotent [("a", "pro")] "b" (by decide)).1,
   (delete_key_handler_idempotent [("a", "pro")] "b" (by decide)).2.2.2
     (by decide)⟩

/-- After the only permit of a `max = 1` window is taken, every further
serialized reservation in that window is denied and leaves the count and
window start unchanged. -/
theorem reserveSeq_saturated (lim : PlanLimit) (now : Int)
    (hmax : lim.maxRequestsPerWindow = 1) (m : Nat) :
    ∀ k : KeyRec, k.windowCount = 1 →
      now < k.windowStart + lim.windowDurationMs →
      (reserveSeq lim now k m).1 = List.replicate m false ∧
      (reserveSeq lim now k m).2.windowCount = 1 := by
  induction m with
  | zero => intro k hc _; exact ⟨rfl, hc⟩
  | succ m ih =>
      intro k hc hw
      have hreset : ¬ now ≥ k.windowStart + lim.windowDurationMs := not_le.mpr hw
      have hfull : ¬ k.windowCount < lim.maxRequestsPerWindow := by
        rw [hmax, hc]; omega
      have hstep : reserve lim now k =
          (⟨false, k.windowStart + lim.windowDurationMs - now⟩,
           { k with nextAllowedAt := k.windowStart + lim.windowDurationMs }) := by
        unfold reserve
        rw [if_neg hreset, if_neg hfull]
      have := ih { k with nextAllowedAt := k.windowStart + lim.windowDurationMs }
        hc hw
      simp only [reserveSeq, hstep, List.replicate_succ]
      exact ⟨by rw [this.1], this.2⟩

/-- C2: with `maxRequestsPerWindow = 1`, a batch of `n ≥ 1` reservations on
one key inside a single window — serialized, as the spec's per-key atomicity
requires of concurrent callers — grants exactly one request, and the window
count never passes the limit: it ends at exactly 1. -/
theorem reserve_single_grant (lim : PlanLimit) (now : Int) (n : Nat)
    (k : KeyRec) (hmax : lim.maxRequestsPerWindow = 1) (hn : 1 ≤ n)
    (hc : k.windowCount = 0)
    (hw : now < k.windowStart + lim.windowDurationMs) :
    (reserveSeq lim now k n).1.count true = 1 ∧
    (reserveSeq lim now k n).1.length = n ∧
    (reserveSeq lim now k n).2.windowCount = 1 := by
  rcases n with _ | m
  · omega
  · have hreset : ¬ now ≥ k.windowStart + lim.windowDurationMs := not_le.mpr hw
    have hroom : k.windowCount < lim.maxRequestsPerWindow := by
      rw [hmax, hc]; omega
    have hstep : reserve lim now k =
        (⟨true, 0⟩,
         { k with windowCount := k.windowCount + 1, nextAllowedAt := now }) := by
      unfold reserve
      rw [if_neg hreset, if_pos hroom]
    have hsat := reserveSeq_saturated lim now hmax m
      { k with windowCount := k.windowCount + 1, nextAllowedAt := now }
      (by simp [hc]) (by simpa using hw)
    simp only [reserveSeq, hstep]
    refine ⟨?_, ?_, hsat.2⟩
    · rw [hsat.1]; simp [List.count_replicate]
    · rw [hsat.1]; simp

/-- Witness for C2: three concurrent reservations on a fresh key with one
permit per minute grant exactly once. -/
theorem reserve_single_grant_witness :
    (reserveSeq ⟨1, 60000⟩ 5 ⟨0, 0, 0⟩ 3).1.count true = 1 ∧
      (reserveSeq ⟨1, 60000⟩ 5 ⟨0, 0, 0⟩ 3).1.length = 3 ∧
      (reserveSeq ⟨1, 60000⟩ 5 ⟨0, 0, 0⟩ 3).2.windowCount = 1 :=
  reserve_single_grant ⟨1, 60000⟩ 5 3 ⟨0, 0, 0⟩ rfl (by decide) rfl (by decide)

/-- The health-check loop always terminates normally, with every key probed
in order, whatever the probe and `deleteKey` outcomes are. -/
theorem hcLoop_ok (jsonRemove : String → String → String)
    (probe : String → ProbeOutcome) (delOk : String → Except String Unit) :
    ∀ (ids : List String) (env : String) (cleaned probed : List String),
      ∃ env2 cleaned2,
        hcLoop jsonRemove probe delOk ids env cleaned probed =
          .ok (env2, cleaned2, probed ++ ids) := by
  intro ids
  induction ids with
  | nil => intro env cleaned probed; exact ⟨env, cleaned, by simp [hcLoop]⟩
  | cons id rest ih =>
      intro env cleaned probed
      unfold hcLoop
      by_cases hv : validateKey (probe id) = true
      · rcases ih env cleaned (probed ++ [id]) with ⟨e2, c2, hrec⟩
        exact ⟨e2, c2, by rw [if_pos hv, hrec]; simp⟩
      · rw [if_neg hv]
        match hdel : delOk id with
        | .ok _ =>
            rcases ih (if (removeSubscriptionFromEnv jsonRemove env id).2 then
                (removeSubscriptionFromEnv jsonRemove env id).1 else env)
              (cleaned ++ [id]) (probed ++ [id]) with ⟨e2, c2, hrec⟩
            exact ⟨e2, c2, by rw [hrec]; simp⟩
        | .error _ =>
            rcases ih env cleaned (probed ++ [id]) with ⟨e2, c2, hrec⟩
            exact ⟨e2, c2, by rw [hrec]; simp⟩

/-- When every probe validates, the loop changes nothing: no key is cleaned
and the env content is untouched. -/
theorem hcLoop_all_valid (jsonRemove : String → String → String)
    (probe : String → ProbeOutcome) (delOk : String → Except String Unit) :
    ∀ (ids : List String) (env : String) (cleaned probed : List String),
      (∀ id ∈ ids, validateKey (probe id) = true) →
      hcLoop jsonRemove probe delOk ids env cleaned probed =
        .ok (env, cleaned, probed ++ ids) := by
  intro ids
  induction ids with
  | nil => intro env cleaned probed _; simp [hcLoop]
  | cons id rest ih =>
      intro env cleaned probed hall
      unfold hcLoop
      rw [if_pos (hall id (by simp)),
        ih env cleaned (probed ++ [id]) (fun i hi => hall i (by simp [hi]))]
      simp

/-- C5: one key's probe failure or `deleteKey` failure never aborts the
cycle — `performHealthCheck` returns normally for every combination of
per-key outcomes, and every key in the list has been probed. -/
theorem health_check_never_aborts (jsonRemove : String → String → String)
    (probe : String → ProbeOutcome) (delOk : String → Except String Unit)
    (ids : List String) (envRead : Option String) :
    ∃ r : HCResult,
      performHealthCheck jsonRemove probe delOk ids envRead = .ok r ∧
        r.probed = ids := by
  unfold performHealthCheck
  by_cases hids : ids.isEmpty
  · refine ⟨⟨[], [], none⟩, by rw [if_pos hids], ?_⟩
    simpa using (List.isEmpty_iff.mp hids).symm
  · rw [if_neg hids]
    dsimp only
    rcases hcLoop_ok jsonRemove probe delOk ids (envRead.getD "") [] []
      with ⟨e2, c2, hrec⟩
    rw [hrec]
    exact ⟨_, rfl, by simp⟩

/-- Witness for C5: a cycle over two keys in which the first key's probe
times out and its `deleteKey` call fails still probes both keys and returns
normally. -/
theorem health_check_never_aborts_witness :
    ∃ r : HCResult,
      performHealthCheck (fun v _ => v) (fun _ => .errNoResp)
          (fun _ => .error "storage down") ["k1", "k2"] (some "A=1") =
        .ok r ∧ r.probed = ["k1", "k2"] :=
  health_check_never_aborts (fun v _ => v) (fun _ => .errNoResp)
    (fun _ => .error "storage down") ["k1", "k2"] (some "A=1")

/-- C10: `performHealthCheck` writes the env file only when at least one key
was evicted in that cycle; when every probe validates, or the pool is empty,
no write happens. -/
theorem health_check_write_only_on_eviction
    (jsonRemove : String → String → String) (probe : String → ProbeOutcome)
    (delOk : String → Except String Unit) (ids : List String)
    (envRead : Option String) :
    ∃ r : HCResult,
      performHealthCheck jsonRemove probe delOk ids envRead = .ok r ∧
      (r.envWritten.isSome → r.cleaned ≠ []) ∧
      ((∀ id ∈ ids, validateKey (probe id) = true) → r.envWritten = none) ∧
      (ids = [] → r.envWritten = none) := by
  unfold performHealthCheck
  by_cases hids : ids.isEmpty
  · exact ⟨⟨[], [], none⟩, by rw [if_pos hids], by simp, fun _ => rfl,
      fun _ => rfl⟩
  · rw [if_neg hids]
    dsimp only
    rcases hcLoop_ok jsonRemove probe delOk ids (envRead.getD "") [] []
      with ⟨e2, c2, hrec⟩
    rw [hrec]
    refine ⟨_, rfl, ?_, ?_, ?_⟩
    · intro hsome
      by_cases hc : c2 ≠ []
      · exact hc
      · rw [if_neg hc] at hsome; cases hsome
    · intro hall
      have h2 := hcLoop_all_valid jsonRemove probe delOk ids (envRead.getD "")
        [] [] hall
      rw [hrec] at h2
      have hc2 : c2 = [] := by
        simp only [Except.ok.injEq, Prod.mk.injEq] at h2
        exact h2.2.1
      simp [hc2]
    · intro hnil
      exact absurd (by simp [hnil] : ids.isEmpty = true) hids

/-- Witness for C10: a cycle over one healthy key leaves the env file
unwritten. -/
theorem health_check_write_only_on_eviction_witness :
    ∃ r : HCResult,
      performHealthCheck (fun v _ => v) (fun _ => .ok200 "ok")
          (fun _ => .ok ()) ["k1"] (some "MAILTESTER_KEYS=k1") =
        .ok r ∧ r.envWritten = none := by
  rcases health_check_write_only_on_eviction (fun v _ => v)
      (fun _ => .ok200 "ok") (fun _ => .ok ()) ["k1"]
      (some "MAILTESTER_KEYS=k1") with ⟨r, hr, _, hall, _⟩
  exact ⟨r, hr, hall (by decide)⟩

/-- C1 (refuting the claim as stated): a transient probe failure — here a
network error carrying no HTTP response at all, the timeout case — makes
`validateKey` return `false` exactly as an authorization rejection does, and
one health-check cycle then evicts the key: `deleteKey` runs (`cleanedIds`
records the id) and the id is removed from the `.env` content.  The key is
not retained. -/
theorem health_check_evicts_on_transient_error :
    validateKey .errNoResp = false ∧
      performHealthCheck (fun v _ => v) (fun _ => .errNoResp) (fun _ => .ok ())
          ["k1"] (some "MAILTESTER_KEYS=k1,k2") =
        .ok ⟨["k1"], ["k1"], some "MAILTESTER_KEYS=k2"⟩ :=
  ⟨by decide, by decide⟩

/-! ### Association-map lemmas for the reconciler -/

theorem alookup_nil {b : Type} (k : String) : alookup ([] : List (String × b)) k = none := rfl

theorem alookup_cons {b : Type} (p : String × b) (m : List (String × b)) (k : String) :
    alookup (p :: m) k = if p.1 = k then some p.2 else alookup m k := rfl

theorem alookup_eq_none_iff {b : Type} (m : List (String × b)) (k : String) :
    alookup m k = none ↔ k ∉ m.map Prod.fst := by
  induction m with
  | nil => simp [alookup_nil]
  | cons hd tl ih =>
      rw [alookup_cons]
      by_cases h : hd.1 = k
      · simp [h]
      · have hk : k ≠ hd.1 := fun hh => h hh.symm
        rw [if_neg h, ih]
        simp [hk]

theorem alookup_some_mem {b : Type} {m : List (String × b)} {k : String}
    {v : b} (h : alookup m k = some v) : (k, v) ∈ m := by
  induction m with
  | nil => cases h
  | cons hd tl ih =>
      rw [alookup_cons] at h
      by_cases hh : hd.1 = k
      · rw [if_pos hh] at h
        exact List.mem_cons.mpr (Or.inl (by rw [← hh, ← Option.some_inj.mp h]))
      · rw [if_neg hh] at h
        exact List.mem_cons_of_mem hd (ih h)

theorem alookup_overwrite_self {b : Type} (m : List (String × b))
    (k : String) (v : b) (h : (alookup m k).isSome) :
    alookup (m.map (fun p => if p.1 = k then (k, v) else p)) k = some v := by
  induction m with
  | nil => simp [alookup_nil] at h
  | cons hd tl ih =>
      rw [alookup_cons] at h
      by_cases hh : hd.1 = k
      · simp [alookup_cons, hh]
      · rw [if_neg hh] at h
        simpa [alookup_cons, hh] using ih h

theorem alookup_overwrite_ne {b : Type} (m : List (String × b))
    (k k' : String) (v : b) (h : k' ≠ k) :
    alookup (m.map (fun p => if p.1 = k then (k, v) else p)) k' =
      alookup m k' := by
  induction m with
  | nil => rfl
  | cons hd tl ih =>
      by_cases hh : hd.1 = k
      · have hne : hd.1 ≠ k' := fun hc => h (hc.symm.trans hh)
        simp only [List.map_cons, if_pos hh, alookup_cons,
          if_neg (fun hc : k = k' => h hc.symm), if_neg hne]
        exact ih
      · simp only [List.map_cons, if_neg hh, alookup_cons]
        by_cases hk' : hd.1 = k'
        · rw [if_pos hk', if_pos hk']
        · rw [if_neg hk', if_neg hk']
          exact ih

theorem alookup_append_single_self {b : Type} (m : List (String × b))
    (k : String) (v : b) : alookup (m ++ [(k, v)]) k = some v ∨
      (alookup m k).isSome := by
  induction m with
  | nil => simp [alookup_cons, alookup_nil]
  | cons hd tl ih =>
      by_cases hh : hd.1 = k
      · right; simp [alookup_cons, hh]
      · rcases ih with h | h
        · left; simpa [alookup_cons, hh] using h
        · right; simpa [alookup_cons, hh] using h

theorem alookup_append_single_ne {b : Type} (m : List (String × b))
    (k k' : String) (v : b) (h : k' ≠ k) :
    alookup (m ++ [(k, v)]) k' = alookup m k' := by
  induction m with
  | nil =>
      have hk : ¬ k = k' := fun hc => h hc.symm
      simp [alookup_cons, alookup_nil, hk]
  | cons hd tl ih =>
      by_cases hk' : hd.1 = k'
      · simp [alookup_cons, hk']
      · simpa [alookup_cons, hk'] using ih

theorem alookup_mapSet_self {b : Type} (m : List (String × b)) (k : String)
    (v : b) : alookup (mapSet m k v) k = some v := by
  unfold mapSet
  by_cases h : (alookup m k).isSome
  · rw [if_pos h]
    exact alookup_overwrite_self m k v h
  · rw [if_neg h]
    rcases alookup_append_single_self m k v with hc | hc
    · exact hc
    · exact absurd hc h

theorem alookup_mapSet_ne {b : Type} (m : List (String × b)) (k k' : String)
    (v : b) (h : k' ≠ k) : alookup (mapSet m k v) k' = alookup m k' := by
  unfold mapSet
  by_cases hp : (alookup m k).isSome
  · rw [if_pos hp]
    exact alookup_overwrite_ne m k k' v h
  · rw [if_neg hp]
    exact alookup_append_single_ne m k k' v h

theorem mapSet_keys_of_present {b : Type} (m : List (String × b))
    (k : String) (v : b) (h : (alookup m k).isSome) :
    (mapSet m k v).map Prod.fst = m.map Prod.fst := by
  unfold mapSet
  rw [if_pos h, List.map_map]
  refine List.map_congr_left ?_
  intro p _
  by_cases hh : p.1 = k <;> simp [hh]

theorem mapSet_keys_of_absent {b : Type} (m : List (String × b))
    (k : String) (v : b) (h : ¬ (alookup m k).isSome) :
    (mapSet m k v).map Prod.fst = m.map Prod.fst ++ [k] := by
  unfold mapSet
  rw [if_neg h, List.map_append]
  rfl

theorem mapSet_keys_nodup {b : Type} (m : List (String × b)) (k : String)
    (v : b) (h : (m.map Prod.fst).Nodup) :
    ((mapSet m k v).map Prod.fst).Nodup := by
  by_cases hp : (alookup m k).isSome
  · rw [mapSet_keys_of_present m k v hp]; exact h
  · rw [mapSet_keys_of_absent m k v hp]
    have hk : k ∉ m.map Prod.fst := by
      rw [← alookup_eq_none_iff]
      exact Option.not_isSome_iff_eq_none.mp hp
    rw [List.nodup_append]
    exact ⟨h, List.nodup_singleton k, by simpa using hk⟩

theorem foldl_mapSet_lookup_not_mem {b : Type} (l : List (String × b))
    (k : String) (h : k ∉ l.map Prod.fst) (m : List (String × b)) :
    alookup (l.foldl (fun m kv => mapSet m kv.1 kv.2) m) k = alookup m k := by
  induction l generalizing m with
  | nil => rfl
  | cons hd tl ih =>
      simp only [List.map_cons, List.mem_cons, not_or] at h
      rw [List.foldl_cons, ih h.2, alookup_mapSet_ne _ _ _ _
        (fun hc : k = hd.1 => h.1 hc)]

theorem foldl_mapSet_lookup_acc {b : Type} (l : List (String × b))
    (hl : (l.map Prod.fst).Nodup) (m : List (String × b)) (k : String) :
    alookup (l.foldl (fun m kv => mapSet m kv.1 kv.2) m) k =
      (alookup l k).elim (alookup m k) some := by
  induction l generalizing m with
  | nil => rfl
  | cons hd tl ih =>
      simp only [List.map_cons, List.nodup_cons] at hl
      rw [List.foldl_cons, ih hl.2, alookup_cons]
      by_cases hh : hd.1 = k
      · have htl : alookup tl k = none := by
          rw [alookup_eq_none_iff]
          exact hh ▸ hl.1
        rw [htl, if_pos hh, ← hh, alookup_mapSet_self]
        rfl
      · rw [if_neg hh,
          alookup_mapSet_ne _ _ _ _ (fun hc : k = hd.1 => hh hc.symm)]

theorem alookup_buildMap_of_nodup {b : Type} (l : List (String × b))
    (hl : (l.map Prod.fst).Nodup) (k : String) :
    alookup (buildMap l) k = alookup l k := by
  unfold buildMap
  rw [foldl_mapSet_lookup_acc l hl [] k]
  cases alookup l k <;> rfl

theorem foldl_mapSet_lookup_some {b : Type} (l : List (String × b))
    (m : List (String × b)) (k : String) (v : b)
    (h : alookup (l.foldl (fun m kv => mapSet m kv.1 kv.2) m) k = some v) :
    (k, v) ∈ l ∨ alookup m k = some v := by
  induction l generalizing m with
  | nil => exact Or.inr h
  | cons hd tl ih =>
      rw [List.foldl_cons] at h
      rcases ih (mapSet m hd.1 hd.2) h with hc | hc
      · exact Or.inl (List.mem_cons_of_mem hd hc)
      · by_cases hh : hd.1 = k
        · rw [← hh, alookup_mapSet_self] at hc
          exact Or.inl (List.mem_cons.mpr (Or.inl
            (by rw [← hh, ← Option.some_inj.mp hc])))
        · rw [alookup_mapSet_ne _ _ _ _ (fun hc' : k = hd.1 => hh hc'.symm)]
            at hc
          exact Or.inr hc

theorem buildMap_lookup_some_mem {b : Type} (l : List (String × b))
    (k : String) (v : b) (h : alookup (buildMap l) k = some v) : (k, v) ∈ l := by
  rcases foldl_mapSet_lookup_some l [] k v h with hc | hc
  · exact hc
  · cases hc

theorem foldl_mapSet_lookup_none_iff {b : Type} (l : List (String × b))
    (m : List (String × b)) (k : String) :
    alookup (l.foldl (fun m kv => mapSet m kv.1 kv.2) m) k = none ↔
      (alookup m k = none ∧ k ∉ l.map Prod.fst) := by
  induction l generalizing m with
  | nil => simp
  | cons hd tl ih =>
      rw [List.foldl_cons, ih (mapSet m hd.1 hd.2)]
      by_cases hh : hd.1 = k
      · rw [← hh, alookup_mapSet_self]
        simp [hh]
      · rw [alookup_mapSet_ne _ _ _ _ (fun hc : k = hd.1 => hh hc.symm)]
        have hk : ¬ k = hd.1 := fun hc => hh hc.symm
        simp [hk]

theorem buildMap_lookup_none_iff {b : Type} (l : List (String × b))
    (k : String) : alookup (buildMap l) k = none ↔ k ∉ l.map Prod.fst := by
  unfold buildMap
  rw [foldl_mapSet_lookup_none_iff]
  simp [alookup_nil]

theorem foldl_mapSet_keys_nodup {b : Type} (l : List (String × b))
    (m : List (String × b)) (h : (m.map Prod.fst).Nodup) :
    (((l.foldl (fun m kv => mapSet m kv.1 kv.2) m)).map Prod.fst).Nodup := by
  induction l generalizing m with
  | nil => exact h
  | cons hd tl ih =>
      rw [List.foldl_cons]
      exact ih _ (mapSet_keys_nodup m hd.1 hd.2 h)

theorem buildMap_keys_nodup {b : Type} (l : List (String × b)) :
    ((buildMap l).map Prod.fst).Nodup :=
  foldl_mapSet_keys_nodup l [] (by simp)

theorem alookup_deleteKey (p : List (String × String)) (id k : String) :
    alookup (deleteKey p id) k = if id = k then none else alookup p k := by
  induction p with
  | nil =>
      unfold deleteKey
      by_cases h : id = k <;> simp [alookup_nil, h]
  | cons hd tl ih =>
      unfold deleteKey at *
      by_cases hh : hd.1 = id
      · rw [List.filter_cons, if_neg (by simp [hh]), ih]
        by_cases hk : id = k
        · rw [if_pos hk, if_pos hk]
        · rw [if_neg hk, if_neg hk, alookup_cons,
            if_neg (fun hc : hd.1 = k => hk (hh ▸ hc))]
      · rw [List.filter_cons, if_pos (by simp [hh]), alookup_cons,
          alookup_cons, ih]
        by_cases hk : hd.1 = k
        · have hnk : ¬ id = k := fun hc => hh (hk.trans hc.symm)
          simp [hk, hnk]
        · simp [hk]

theorem foldl_deleteKey_none (dels : List String)
    (p : List (String × String)) (id : String) (h : alookup p id = none) :
    alookup (dels.foldl deleteKey p) id = none := by
  induction dels generalizing p with
  | nil => exact h
  | cons d rest ih =>
      rw [List.foldl_cons]
      refine ih _ ?_
      rw [alookup_deleteKey]
      by_cases hd : d = id <;> simp [hd, h]

theorem foldl_deleteKey_mem (dels : List String)
    (p : List (String × String)) (id : String) (h : id ∈ dels) :
    alookup (dels.foldl deleteKey p) id = none := by
  induction dels generalizing p with
  | nil => cases h
  | cons d rest ih =>
      rw [List.foldl_cons]
      rcases List.mem_cons.mp h with rfl | hmem
      · exact foldl_deleteKey_none rest _ id
          (by rw [alookup_deleteKey]; simp)
      · exact ih _ hmem

theorem foldl_deleteKey_not_mem (dels : List String)
    (p : List (String × String)) (id : String) (h : id ∉ dels) :
    alookup (dels.foldl deleteKey p) id = alookup p id := by
  induction dels generalizing p with
  | nil => rfl
  | cons d rest ih =>
      simp only [List.mem_cons, not_or] at h
      rw [List.foldl_cons, ih _ h.2, alookup_deleteKey,
        if_neg (fun hc : d = id => h.1 hc.symm)]

theorem deleteKey_keys_nodup (p : List (String × String)) (id : String)
    (h : (p.map Prod.fst).Nodup) : ((deleteKey p id).map Prod.fst).Nodup :=
  List.Nodup.sublist (List.Sublist.map Prod.fst (List.filter_sublist p)) h

theorem foldl_deleteKey_keys_nodup (dels : List String)
    (p : List (String × String)) (h : (p.map Prod.fst).Nodup) :
    (((dels.foldl deleteKey p)).map Prod.fst).Nodup := by
  induction dels generalizing p with
  | nil => exact h
  | cons d rest ih =>
      rw [List.foldl_cons]
      exact ih _ (deleteKey_keys_nodup p d h)

/-- The register loop of `performSync` is a `mapSet` fold. -/
theorem registerKey_fold_eq (regs : List (String × String))
    (p : List (String × String)) :
    regs.foldl (fun p kv => registerKey p kv.1 kv.2) p =
      regs.foldl (fun m kv => mapSet m kv.1 kv.2) p := rfl

theorem alookup_of_mem_nodup {b : Type} {m : List (String × b)}
    (h : (m.map Prod.fst).Nodup) {k : String} {v : b} (hm : (k, v) ∈ m) :
    alookup m k = some v := by
  induction m with
  | nil => cases hm
  | cons hd tl ih =>
      simp only [List.map_cons, List.nodup_cons] at h
      rcases List.mem_cons.mp hm with rfl | hmem
      · simp [alookup_cons]
      · have hk : k ∈ tl.map Prod.fst :=
          List.mem_map.mpr ⟨(k, v), hmem, rfl⟩
        rw [alookup_cons, if_neg (fun hc : hd.1 = k => h.1 (hc ▸ hk)),
          ih h.2 hmem]

theorem needsRegister_false_of_match (em : List (String × String))
    (kv : String × String) (h : alookup em kv.1 = some kv.2)
    (hne : kv.2 ≠ "") : needsRegister em kv = false := by
  unfold needsRegister
  rw [h]
  simp [hne]

theorem needsRegister_false_elim (em : List (String × String))
    (kv : String × String) (h : needsRegister em kv = false) :
    alookup em kv.1 = some kv.2 ∧ kv.2 ≠ "" := by
  unfold needsRegister at h
  match hm : alookup em kv.1 with
  | none => rw [hm] at h; cases h
  | some p =>
      rw [hm] at h
      simp only [decide_eq_false_iff_not, not_not] at h
      exact ⟨congrArg some h.2, h.2 ▸ h.1⟩


theorem syncOps_registers (d : List KeyPlan) (e : List (String × String)) :
    (syncOps d e).registers =
      (desiredMapOf d).filter (needsRegister (buildMap e)) := rfl

theorem syncOps_deletes (d : List KeyPlan) (e : List (String × String)) :
    (syncOps d e).deletes = ((buildMap e).map Prod.fst).filter
      (fun id => (alookup (desiredMapOf d) id).isNone) := rfl

theorem applySync_eq (p : List (String × String)) (ops : SyncOps) :
    applySync p ops = ops.deletes.foldl deleteKey
      (ops.registers.foldl (fun p kv => registerKey p kv.1 kv.2) p) := rfl

/-- After one reconciliation pass, the pool agrees with the desired map on
every id: desired ids carry their desired plan, all other ids are gone. -/
theorem applySync_lookup (desired : List KeyPlan)
    (pool : List (String × String)) (hN : (pool.map Prod.fst).Nodup)
    (id : String) :
    (∀ pl, alookup (desiredMapOf desired) id = some pl →
      alookup (applySync pool (syncOps desired pool)) id = some pl) ∧
    (alookup (desiredMapOf desired) id = none →
      alookup (applySync pool (syncOps desired pool)) id = none) := by
  have hdmN : ((desiredMapOf desired).map Prod.fst).Nodup :=
    buildMap_keys_nodup _
  have hregsN : (((syncOps desired pool).registers).map Prod.fst).Nodup := by
    rw [syncOps_registers]
    exact List.Nodup.sublist
      (List.Sublist.map Prod.fst (List.filter_sublist _)) hdmN
  have hem : ∀ x, alookup (buildMap pool) x = alookup pool x := fun x =>
    alookup_buildMap_of_nodup pool hN x
  rw [applySync_eq]
  constructor
  · intro pl hdm
    have hnotdel : id ∉ (syncOps desired pool).deletes := by
      intro hmem
      rw [syncOps_deletes] at hmem
      have := (List.mem_filter.mp hmem).2
      rw [hdm] at this
      cases this
    rw [foldl_deleteKey_not_mem _ _ _ hnotdel, registerKey_fold_eq]
    by_cases hinregs : (id, pl) ∈ (syncOps desired pool).registers
    · have := foldl_mapSet_lookup_acc ((syncOps desired pool).registers)
        hregsN pool id
      rw [alookup_of_mem_nodup hregsN hinregs] at this
      simpa using this
    · have hkvdm : (id, pl) ∈ desiredMapOf desired := alookup_some_mem hdm
      have hnr : needsRegister (buildMap pool) (id, pl) = false := by
        cases hb : needsRegister (buildMap pool) (id, pl) with
        | false => rfl
        | true =>
            exact absurd (by rw [syncOps_registers]
                             exact List.mem_filter.mpr ⟨hkvdm, hb⟩) hinregs
      have hex := needsRegister_false_elim _ _ hnr
      have hidnotregs : id ∉ ((syncOps desired pool).registers).map Prod.fst := by
        intro hmem
        rcases List.mem_map.mp hmem with ⟨kv', hkv', hfst⟩
        rw [syncOps_registers] at hkv'
        have hkv'dm : kv' ∈ desiredMapOf desired := (List.mem_filter.mp hkv').1
        have hlv : alookup (desiredMapOf desired) kv'.1 = some kv'.2 :=
          alookup_of_mem_nodup hdmN hkv'dm
        rw [hfst, hdm] at hlv
        have hkveq : kv' = (id, pl) := by
          rcases kv' with ⟨a, c⟩
          simp only at hfst
          have hc : c = pl := Option.some_inj.mp hlv.symm
          rw [hfst, hc]
        rw [hkveq, ← syncOps_registers] at hkv'
        exact hinregs hkv'
      rw [foldl_mapSet_lookup_not_mem _ _ hidnotregs, ← hem id]
      exact hex.1
  · intro hdm
    have hnokeys : id ∉ ((desiredMapOf desired).map Prod.fst) :=
      (alookup_eq_none_iff _ _).mp hdm
    have hidnotregs : id ∉ ((syncOps desired pool).registers).map Prod.fst := by
      intro hmem
      rcases List.mem_map.mp hmem with ⟨kv', hkv', hfst⟩
      rw [syncOps_registers] at hkv'
      exact hnokeys (List.mem_map.mpr
        ⟨kv', (List.mem_filter.mp hkv').1, hfst⟩)
    have hpoolR : alookup (((syncOps desired pool).registers).foldl
        (fun p kv => registerKey p kv.1 kv.2) pool) id = alookup pool id := by
      rw [registerKey_fold_eq]
      exact foldl_mapSet_lookup_not_mem _ _ hidnotregs pool
    by_cases hp : alookup pool id = none
    · exact foldl_deleteKey_none _ _ _ (hpoolR.trans hp)
    · have hidem : id ∈ (buildMap pool).map Prod.fst := by
        by_contra hc
        exact hp ((hem id).symm.trans ((alookup_eq_none_iff _ _).mpr hc))
      have hdel : id ∈ (syncOps desired pool).deletes := by
        rw [syncOps_deletes]
        exact List.mem_filter.mpr ⟨hidem, by simp [hdm]⟩
      exact foldl_deleteKey_mem _ _ _ hdel

/-- C4: one reconciliation pass registers only ids whose plan differs from
or is absent in the existing pool, deletes only existing ids absent from the
desired state, and re-running with an unchanged desired list after a
successful first run issues zero registrations and zero deletions.  The
hypotheses record the system invariants this relies on: pool ids are unique
(spec §3) and the desired list comes from the parser, whose plans are always
`pro` or `ultimate` (claim C8). -/
theorem reconciler_idempotent (desired : List KeyPlan)
    (pool : List (String × String)) (hN : (pool.map Prod.fst).Nodup)
    (hP : ∀ kp ∈ desired, kp.plan = "pro" ∨ kp.plan = "ultimate") :
    (∀ kv ∈ (syncOps desired pool).registers, alookup pool kv.1 ≠ some kv.2) ∧
    (∀ i ∈ (syncOps desired pool).deletes,
        i ∈ pool.map Prod.fst ∧ i ∉ desired.map KeyPlan.id) ∧
    syncOps desired (applySync pool (syncOps desired pool)) = ⟨[], []⟩ := by
  have hdmN : ((desiredMapOf desired).map Prod.fst).Nodup :=
    buildMap_keys_nodup _
  have hem : ∀ x, alookup (buildMap pool) x = alookup pool x := fun x =>
    alookup_buildMap_of_nodup pool hN x
  have hplan : ∀ kv ∈ desiredMapOf desired, kv.2 ≠ "" := by
    intro kv hkv
    have hl : alookup (desiredMapOf desired) kv.1 = some kv.2 :=
      alookup_of_mem_nodup hdmN hkv
    have hmem := buildMap_lookup_some_mem _ _ _ hl
    rcases List.mem_map.mp hmem with ⟨kp, hkp, heq⟩
    have hp2 : kp.plan = kv.2 := congrArg Prod.snd heq
    rw [← hp2]
    rcases hP kp hkp with h | h <;> rw [h] <;> decide
  refine ⟨?_, ?_, ?_⟩
  · intro kv hkv hlook
    rw [syncOps_registers] at hkv
    rcases List.mem_filter.mp hkv with ⟨hkvdm, hpred⟩
    have hfalse := needsRegister_false_of_match (buildMap pool) kv
      ((hem kv.1).trans hlook) (hplan kv hkvdm)
    rw [hpred] at hfalse
    cases hfalse
  · intro i hi
    rw [syncOps_deletes] at hi
    rcases List.mem_filter.mp hi with ⟨hiem, hnone⟩
    constructor
    · by_contra hc
      have h0 : alookup pool i = none := (alookup_eq_none_iff pool i).mpr hc
      have h2 : alookup (buildMap pool) i = none := (hem i).trans h0
      exact ((alookup_eq_none_iff _ _).mp h2) hiem
    · have hnone' : alookup (desiredMapOf desired) i = none :=
        Option.isNone_iff_eq_none.mp (by simpa using hnone)
      have hkeys := (buildMap_lookup_none_iff
        (desired.map (fun k : KeyPlan => (k.id, k.plan))) i).mp
        (by exact hnone')
      intro hmem
      refine hkeys ?_
      have hmm : (desired.map (fun k : KeyPlan => (k.id, k.plan))).map
          Prod.fst = desired.map KeyPlan.id := by
        rw [List.map_map]
        exact List.map_congr_left (fun a _ => rfl)
      rw [hmm]
      exact hmem
  · have hN1 : ((applySync pool (syncOps desired pool)).map Prod.fst).Nodup := by
      rw [applySync_eq]
      refine foldl_deleteKey_keys_nodup _ _ ?_
      rw [registerKey_fold_eq]
      exact foldl_mapSet_keys_nodup _ _ hN
    have hem2 : ∀ x,
        alookup (buildMap (applySync pool (syncOps desired pool))) x =
          alookup (applySync pool (syncOps desired pool)) x := fun x =>
      alookup_buildMap_of_nodup _ hN1 x
    have hreg2 : (syncOps desired
        (applySync pool (syncOps desired pool))).registers = [] := by
      rw [syncOps_registers, List.filter_eq_nil_iff]
      intro kv hkv
      have hl : alookup (desiredMapOf desired) kv.1 = some kv.2 :=
        alookup_of_mem_nodup hdmN hkv
      have h1 := (applySync_lookup desired pool hN kv.1).1 kv.2 hl
      have hfalse := needsRegister_false_of_match _ kv
        ((hem2 kv.1).trans h1) (hplan kv hkv)
      simp [hfalse]
    have hdel2 : (syncOps desired
        (applySync pool (syncOps desired pool))).deletes = [] := by
      rw [syncOps_deletes, List.filter_eq_nil_iff]
      intro i hi h
      have hdm0 : alookup (desiredMapOf desired) i = none :=
        Option.isNone_iff_eq_none.mp (by simpa using h)
      have h1 := (applySync_lookup desired pool hN i).2 hdm0
      have h2 : alookup (buildMap (applySync pool (syncOps desired pool))) i =
          none := (hem2 i).trans h1
      exact ((alookup_eq_none_iff _ _).mp h2) hi
    have heta : syncOps desired (applySync pool (syncOps desired pool)) =
        ⟨(syncOps desired (applySync pool (syncOps desired pool))).registers,
         (syncOps desired (applySync pool (syncOps desired pool))).deletes⟩ :=
      rfl
    rw [heta, hreg2, hdel2]

/-- Witness for C4: reconciling desired state `a:pro` against a pool holding
only `b` yields zero mutations on the second run. -/
theorem reconciler_idempotent_witness :
    syncOps [⟨"a", "pro"⟩] (applySync [("b", "ultimate")]
      (syncOps [⟨"a", "pro"⟩] [("b", "ultimate")])) = ⟨[], []⟩ :=
  (reconciler_idempotent [⟨"a", "pro"⟩] [("b", "ultimate")] (by decide)
    (by decide)).2.2

theorem removeSubLines_case1 {jr : String → String → String}
    {c i : String} {n : Nat} {nl : String}
    (h : tryEnvKey jr (parseEnvLines c) i "MAILTESTER_KEYS_JSON" =
      some (n, nl)) :
    removeSubLines jr c i = ((parseEnvLines c).lines.set n nl, true) := by
  unfold removeSubLines
  simp only [h]

theorem removeSubLines_case2 {jr : String → String → String}
    {c i : String} {n : Nat} {nl : String}
    (h1 : tryEnvKey jr (parseEnvLines c) i "MAILTESTER_KEYS_JSON" = none)
    (h2 : tryEnvKey jr (parseEnvLines c) i "MAILTESTER_KEYS_WITH_PLAN" =
      some (n, nl)) :
    removeSubLines jr c i = ((parseEnvLines c).lines.set n nl, true) := by
  unfold removeSubLines
  simp only [h1, h2]

theorem removeSubLines_case3 {jr : String → String → String}
    {c i : String} {n : Nat} {nl : String}
    (h1 : tryEnvKey jr (parseEnvLines c) i "MAILTESTER_KEYS_JSON" = none)
    (h2 : tryEnvKey jr (parseEnvLines c) i "MAILTESTER_KEYS_WITH_PLAN" = none)
    (h3 : tryEnvKey jr (parseEnvLines c) i "MAILTESTER_KEYS" = some (n, nl)) :
    removeSubLines jr c i = ((parseEnvLines c).lines.set n nl, true) := by
  unfold removeSubLines
  simp only [h1, h2, h3]

theorem removeSubLines_case4 {jr : String → String → String} {c i : String}
    (h1 : tryEnvKey jr (parseEnvLines c) i "MAILTESTER_KEYS_JSON" = none)
    (h2 : tryEnvKey jr (parseEnvLines c) i "MAILTESTER_KEYS_WITH_PLAN" = none)
    (h3 : tryEnvKey jr (parseEnvLines c) i "MAILTESTER_KEYS" = none) :
    removeSubLines jr c i = ((parseEnvLines c).lines, false) := by
  unfold removeSubLines
  simp only [h1, h2, h3]

/-- C9: `removeSubscriptionFromEnv` modifies at most one config variable —
the three priority variables are tried in order `MAILTESTER_KEYS_JSON`,
`MAILTESTER_KEYS_WITH_PLAN`, `MAILTESTER_KEYS` and the loop stops at the
first whose value changes after removing the id — and every other line of
the file, later variables still containing the id included, is left
character-for-character unchanged. -/
theorem remove_subscription_frame (jsonRemove : String → String → String)
    (content id : String) :
    ∃ n : Nat,
      (removeSubLines jsonRemove content id).1.length =
        (parseEnvLines content).lines.length ∧
      (∀ j : Nat, j ≠ n →
        (removeSubLines jsonRemove content id).1[j]? =
          (parseEnvLines content).lines[j]?) ∧
      ((removeSubLines jsonRemove content id).2 = false →
        (removeSubLines jsonRemove content id).1 =
          (parseEnvLines content).lines) ∧
      ((removeSubLines jsonRemove content id).2 = true →
        ∃ newLine,
          (removeSubLines jsonRemove content id).1 =
            (parseEnvLines content).lines.set n newLine ∧
          (tryEnvKey jsonRemove (parseEnvLines content) id
              "MAILTESTER_KEYS_JSON" = some (n, newLine) ∨
           (tryEnvKey jsonRemove (parseEnvLines content) id
              "MAILTESTER_KEYS_JSON" = none ∧
            tryEnvKey jsonRemove (parseEnvLines content) id
              "MAILTESTER_KEYS_WITH_PLAN" = some (n, newLine)) ∨
           (tryEnvKey jsonRemove (parseEnvLines content) id
              "MAILTESTER_KEYS_JSON" = none ∧
            tryEnvKey jsonRemove (parseEnvLines content) id
              "MAILTESTER_KEYS_WITH_PLAN" = none ∧
            tryEnvKey jsonRemove (parseEnvLines content) id
              "MAILTESTER_KEYS" = some (n, newLine)))) := by
  rcases hj : tryEnvKey jsonRemove (parseEnvLines content) id
      "MAILTESTER_KEYS_JSON" with _ | ⟨idx, nl⟩
  · rcases hw : tryEnvKey jsonRemove (parseEnvLines content) id
        "MAILTESTER_KEYS_WITH_PLAN" with _ | ⟨idx, nl⟩
    · rcases hk : tryEnvKey jsonRemove (parseEnvLines content) id
          "MAILTESTER_KEYS" with _ | ⟨idx, nl⟩
      · rw [removeSubLines_case4 hj hw hk]
        exact ⟨0, rfl, fun j _ => rfl, fun _ => rfl,
          fun h => absurd h (by simp)⟩
      · rw [removeSubLines_case3 hj hw hk]
        refine ⟨idx, by simp, ?_, fun h => absurd h (by simp), ?_⟩
        · intro j hjne
          exact List.getElem?_set_ne (fun hc : idx = j => hjne hc.symm)
        · intro _
          exact ⟨nl, rfl, Or.inr (Or.inr ⟨rfl, rfl, rfl⟩)⟩
    · rw [removeSubLines_case2 hj hw]
      refine ⟨idx, by simp, ?_, fun h => absurd h (by simp), ?_⟩
      · intro j hjne
        exact List.getElem?_set_ne (fun hc : idx = j => hjne hc.symm)
      · intro _
        exact ⟨nl, rfl, Or.inr (Or.inl ⟨rfl, rfl⟩)⟩
  · rw [removeSubLines_case1 hj]
    refine ⟨idx, by simp, ?_, fun h => absurd h (by simp), ?_⟩
    · intro j hjne
      exact List.getElem?_set_ne (fun hc : idx = j => hjne hc.symm)
    · intro _
      exact ⟨nl, rfl, Or.inl rfl⟩

/-- Witness for C9: removing `k1` from a file holding it in
`MAILTESTER_KEYS` below an unrelated variable. -/
theorem remove_subscription_frame_witness :
    ∃ n : Nat,
      (removeSubLines (fun v _ => v) "OTHER=x\nMAILTESTER_KEYS=k1,k2"
          "k1").1.length =
        (parseEnvLines "OTHER=x\nMAILTESTER_KEYS=k1,k2").lines.length ∧
      (∀ j : Nat, j ≠ n →
        (removeSubLines (fun v _ => v) "OTHER=x\nMAILTESTER_KEYS=k1,k2"
            "k1").1[j]? =
          (parseEnvLines "OTHER=x\nMAILTESTER_KEYS=k1,k2").lines[j]?) ∧
      ((removeSubLines (fun v _ => v) "OTHER=x\nMAILTESTER_KEYS=k1,k2"
          "k1").2 = false →
        (removeSubLines (fun v _ => v) "OTHER=x\nMAILTESTER_KEYS=k1,k2"
            "k1").1 =
          (parseEnvLines "OTHER=x\nMAILTESTER_KEYS=k1,k2").lines) ∧
      ((removeSubLines (fun v _ => v) "OTHER=x\nMAILTESTER_KEYS=k1,k2"
          "k1").2 = true →
        ∃ newLine,
          (removeSubLines (fun v _ => v) "OTHER=x\nMAILTESTER_KEYS=k1,k2"
              "k1").1 =
            (parseEnvLines "OTHER=x\nMAILTESTER_KEYS=k1,k2").lines.set n
              newLine ∧
          (tryEnvKey (fun v _ => v)
              (parseEnvLines "OTHER=x\nMAILTESTER_KEYS=k1,k2") "k1"
              "MAILTESTER_KEYS_JSON" = some (n, newLine) ∨
           (tryEnvKey (fun v _ => v)
              (parseEnvLines "OTHER=x\nMAILTESTER_KEYS=k1,k2") "k1"
              "MAILTESTER_KEYS_JSON" = none ∧
            tryEnvKey (fun v _ => v)
              (parseEnvLines "OTHER=x\nMAILTESTER_KEYS=k1,k2") "k1"
              "MAILTESTER_KEYS_WITH_PLAN" = some (n, newLine)) ∨
           (tryEnvKey (fun v _ => v)
              (parseEnvLines "OTHER=x\nMAILTESTER_KEYS=k1,k2") "k1"
              "MAILTESTER_KEYS_JSON" = none ∧
            tryEnvKey (fun v _ => v)
              (parseEnvLines "OTHER=x\nMAILTESTER_KEYS=k1,k2") "k1"
              "MAILTESTER_KEYS_WITH_PLAN" = none ∧
            tryEnvKey (fun v _ => v)
              (parseEnvLines "OTHER=x\nMAILTESTER_KEYS=k1,k2") "k1"
              "MAILTESTER_KEYS" = some (n, newLine)))) :=
  remove_subscription_frame (fun v _ => v) "OTHER=x\nMAILTESTER_KEYS=k1,k2"
    "k1"

end MailTester
